import Mathlib

/-!
# Verification of the `turingmachine-rs` tape and execution engine

Shallow embedding of `src/lib.rs` of the `turingmachine-rs` crate.

The Rust tape is a singly-owned linked list: every `Node` strongly owns its
`prev` neighbour (an `Option<Rc<Node>>` fixed at construction) and holds a
mutable *weak* forward link `next : RefCell<Option<Weak<Node>>>`.  Nodes are
created only by `TuringTape::new` (the start cell, with `prev = None`) and by
`TuringTape::append` (a new node whose `prev` is the current `last`), so at
every moment the live nodes form one chain:

  start = node 0  <-prev-  node 1  <-prev-  ...  <-prev-  node (n-1) = last.

We embed this heap as the list `cells` of the nodes in chain order: the node at
list index `i + 1` owns the node at index `i` via its `prev` field, so the
`prev` link of index `i` is `i - 1` (none at `0`) and needs no stored data.
The mutable weak `next` links are genuinely stored per node (field
`Node.next : Option Nat`, holding the target index); the `last` field of the
Rust struct is always the most recently appended node, i.e. index
`cells.length - 1`; the `cursor` field is the index `cursor`.

Panics and other abnormal outcomes are embedded as explicit `Except` /
outcome values:
* `TapeError.boundaryViolation` is the `panic!("Went left side of the tape!")`
  in `step_left`;
* `TapeError.upgradeFailure` is the `.expect("Unable to upgrade")` on the weak
  forward link in `step_right`;
* `TapeError.danglingCursor` is a model artifact: a read through a cursor
  index that is not on the materialized chain.  In Rust the cursor is a
  strong `Rc` and can never dangle; the reachability invariant (`Invariant`)
  makes this branch unreachable;
* `TapeError.outOfFuel` is a model artifact: loops of the source are embedded
  with an explicit fuel budget because Lean functions must terminate.
-/

/-- One tape cell: the node of the linked list in `src/lib.rs`.  The `prev`
field of the Rust struct is represented structurally by list position (the
node at index `i` has `prev` pointing to index `i - 1`); `next` is the stored
weak forward link (`None` until a node is appended after this one). -/
structure Node (Alphabet : Type) where
  next : Option Nat
  data : Alphabet
deriving DecidableEq

/-- The tape of `src/lib.rs`: `empty` is the symbol written into newly
materialized cells, `cells` is the chain of live nodes in `prev`-order
(index 0 is the start cell, the Rust `last` reference is the final index),
and `cursor` is the index of the cell under the cursor. -/
structure TuringTape (Alphabet : Type) where
  empty : Alphabet
  cells : List (Node Alphabet)
  cursor : Nat
deriving DecidableEq

/-- Abnormal outcomes of tape operations (see the file header). -/
inductive TapeError where
  | boundaryViolation
  | upgradeFailure
  | danglingCursor
  | outOfFuel
deriving DecidableEq

/-- Decidable equality of fallible results, used to evaluate the embedded
operations on concrete inputs. -/
instance {eps alpha : Type} [DecidableEq eps] [DecidableEq alpha] :
    DecidableEq (Except eps alpha) := fun a b =>
  match a, b with
  | .error e1, .error e2 =>
      if h : e1 = e2 then isTrue (by rw [h]) else
        isFalse (fun hc => h (Except.error.inj hc))
  | .error _, .ok _ => isFalse (fun hc => Except.noConfusion hc)
  | .ok _, .error _ => isFalse (fun hc => Except.noConfusion hc)
  | .ok a1, .ok a2 =>
      if h : a1 = a2 then isTrue (by rw [h]) else
        isFalse (fun hc => h (Except.ok.inj hc))

namespace TuringTape

variable {Alphabet : Type}

/-- The node currently under the cursor. -/
def cursorNode (t : TuringTape Alphabet) : Option (Node Alphabet) :=
  t.cells[t.cursor]?

/-- The symbols on the tape in left-to-right order (each cell's `data`). -/
def dataList (t : TuringTape Alphabet) : List Alphabet :=
  t.cells.map Node.data

/-- Embeds `TuringTape::append`: create a new node whose `prev` is the
current `last`, store a weak link to it in `last.next`, and advance `last`.
In the embedding the new node simply becomes the final list element and the
old final element's `next` field is set to the new index. -/
def append (t : TuringTape Alphabet) (token : Alphabet) : TuringTape Alphabet :=
  let n := t.cells.length
  let cells' :=
    match t.cells[n - 1]? with
    | some lastNode => t.cells.set (n - 1) { lastNode with next := some n }
    | none => t.cells
  { t with cells := cells' ++ [{ next := none, data := token }] }

/-- The tape as built by `TuringTape::new` before the initial tokens are
appended: only the start cell, with the cursor on it. -/
def startTape (empty start : Alphabet) : TuringTape Alphabet :=
  { empty := empty, cells := [{ next := none, data := start }], cursor := 0 }

/-- Embeds `TuringTape::new`: the start cell holds `start` (with no `prev`),
then each element of `initial` is appended in order; the cursor starts at the
start cell. -/
def new (empty start : Alphabet) (initial : List Alphabet) : TuringTape Alphabet :=
  List.foldl append (startTape empty start) initial

/-- Embeds `TuringTape::get_cursor`: the symbol at the cursor.  `none` is the
unreachable dangling-cursor artifact (in Rust the cursor `Rc` always
dereferences). -/
def get_cursor (t : TuringTape Alphabet) : Option Alphabet :=
  (t.cells[t.cursor]?).map Node.data

/-- Embeds `TuringTape::set_cursor`: replace the symbol at the cursor, return
the updated tape and the previous symbol (`none` only in the unreachable
dangling-cursor case, where the tape is returned unchanged). -/
def set_cursor (t : TuringTape Alphabet) (value : Alphabet) :
    TuringTape Alphabet × Option Alphabet :=
  match t.cells[t.cursor]? with
  | some nd =>
      ({ t with cells := t.cells.set t.cursor { nd with data := value } }, some nd.data)
  | none => (t, none)

/-- Embeds `TuringTape::step_right`: if the cursor node has a forward link,
upgrade it (`upgradeFailure` embeds the `.expect("Unable to upgrade")` panic,
taken when the target index is not a live cell); otherwise append a fresh
cell holding `empty`.  The cursor then moves to the obtained node and the
symbol there is returned (`get_cursor` after the move). -/
def step_right (t : TuringTape Alphabet) :
    Except TapeError (TuringTape Alphabet × Alphabet) :=
  match t.cursorNode with
  | none => .error .danglingCursor
  | some nd =>
      match nd.next with
      | some j =>
          match t.cells[j]? with
          | some target => .ok ({ t with cursor := j }, target.data)
          | none => .error .upgradeFailure
      | none =>
          let t' := t.append t.empty
          let t'' : TuringTape Alphabet := { t' with cursor := t.cells.length }
          match t''.get_cursor with
          | some a => .ok (t'', a)
          | none => .error .danglingCursor

/-- Embeds `TuringTape::step_left`: move to the `prev` node if there is one
and return the symbol there; `boundaryViolation` embeds the
`panic!("Went left side of the tape!")` taken at the start cell. -/
def step_left (t : TuringTape Alphabet) :
    Except TapeError (TuringTape Alphabet × Alphabet) :=
  match t.cursor with
  | 0 => .error .boundaryViolation
  | j + 1 =>
      let t' : TuringTape Alphabet := { t with cursor := j }
      match t'.get_cursor with
      | some a => .ok (t', a)
      | none => .error .danglingCursor

/-- The invariant of the `TuringTape` struct: the cursor refers to a cell
reachable from `last` via `prev`-links, i.e. its index is on the materialized
chain `0, …, cells.length - 1`. -/
def Invariant (t : TuringTape Alphabet) : Prop :=
  t.cursor < t.cells.length

/-- Heap well-formedness of the stored weak forward links: every node except
`last` links to its right neighbour, and `last` has no forward link.  Every
tape the Rust library can actually build satisfies this (`new` establishes
it, every operation preserves it; see the `nextWF` lemmas). -/
def NextWF (t : TuringTape Alphabet) : Prop :=
  ∀ i, (h : i < t.cells.length) →
    t.cells[i].next =
      if i + 1 < t.cells.length then some (i + 1) else none

instance (t : TuringTape Alphabet) : Decidable t.Invariant := by
  unfold Invariant; infer_instance

instance (t : TuringTape Alphabet) : Decidable t.NextWF := by
  unfold NextWF; exact Nat.decidableBallLT _ _

/-- A successful `step_left` moves the cursor exactly one cell to the left
(used for the termination of `walkLeft`). -/
theorem step_left_cursor_succ {t t' : TuringTape Alphabet} {a : Alphabet}
    (h : t.step_left = .ok (t', a)) : t'.cursor + 1 = t.cursor := by
  unfold step_left at h
  cases hc : t.cursor with
  | zero => rw [hc] at h; simp at h
  | succ j =>
      rw [hc] at h
      simp only at h
      cases hg : get_cursor { t with cursor := j } with
      | none => rw [hg] at h; simp at h
      | some b =>
          rw [hg] at h
          simp only [Except.ok.injEq, Prod.mk.injEq] at h
          rw [← h.1]

/-- Embeds the first loop of `From<TuringTape> for Vec`: step left while the
cursor node has a `prev` link (i.e. while the cursor is not the start cell).
The fuel argument is the model artifact bounding the loop; each `step_left`
moves the cursor one cell closer to the start (`step_left_cursor_succ`), so
any fuel of at least the cursor index is enough. -/
def walkLeft (fuel : Nat) (t : TuringTape Alphabet) :
    Except TapeError (TuringTape Alphabet) :=
  if t.cursor = 0 then .ok t
  else
    match t.step_left with
    | .error e => .error e
    | .ok (t', _) =>
        match fuel with
        | 0 => .error .outOfFuel
        | k + 1 => walkLeft k t'

/-- Embeds the second loop of `From<TuringTape> for Vec` plus the trailing
push: while the cursor node has a forward link, record the cursor symbol and
step right; then record the symbol of the final (rightmost) cell.  The fuel
argument is the model artifact bounding the loop. -/
def walkRight (fuel : Nat) (t : TuringTape Alphabet) (v : List Alphabet) :
    Except TapeError (List Alphabet × TuringTape Alphabet) :=
  match t.cursorNode with
  | none => .error .danglingCursor
  | some nd =>
      match nd.next with
      | none => .ok (v ++ [nd.data], t)
      | some _ =>
          match fuel with
          | 0 => .error .outOfFuel
          | k + 1 =>
              match t.step_right with
              | .error e => .error e
              | .ok (t', _) => walkRight k t' (v ++ [nd.data])

/-- Embeds `From<TuringTape<Alphabet>> for Vec<Alphabet>` (`to_sequence`):
save the cursor, walk to the left boundary, walk right collecting every
symbol, and restore the saved cursor.  Returns the collected sequence and
the resulting tape. -/
def toVec (fuel : Nat) (t : TuringTape Alphabet) :
    Except TapeError (List Alphabet × TuringTape Alphabet) :=
  let cursor_initial := t.cursor
  match walkLeft fuel t with
  | .error e => .error e
  | .ok t0 =>
      match walkRight fuel t0 [] with
      | .error e => .error e
      | .ok (v, t1) => .ok (v, { t1 with cursor := cursor_initial })

end TuringTape

/-- The movement directives of `src/lib.rs` (`Move`): the library enum has
exactly the two variants `Left` and `Right`; "stay" is expressed by the
engine contract returning no movement (`Option::None`). -/
inductive Move where
  | left
  | right
deriving DecidableEq

/-- The transition contract of the `TuringStates` trait in `src/lib.rs`:
`int_step` maps (current state, symbol under cursor) to (optional next
state, optional symbol to write, optional movement). -/
def IntStep (S Alphabet : Type) : Type :=
  S → Alphabet → Option S × Option Alphabet × Option Move

/-- Embeds `TuringStates::step`: read the cursor, invoke `int_step`, adopt
the returned state if any, write the returned symbol if any, apply the
returned movement if any.  A `boundaryViolation` raised by a `Move::Left` at
the start cell propagates (in Rust it is a panic unwinding out of `step`). -/
def TuringStates.step {S Alphabet : Type} (f : IntStep S Alphabet) (s : S)
    (t : TuringTape Alphabet) : Except TapeError (S × TuringTape Alphabet) :=
  match t.get_cursor with
  | none => .error .danglingCursor
  | some tok =>
      let r := f s tok
      let s1 : S := match r.1 with | some st => st | none => s
      let t1 : TuringTape Alphabet :=
        match r.2.1 with | some rep => (t.set_cursor rep).1 | none => t
      match r.2.2 with
      | none => .ok (s1, t1)
      | some .left =>
          match t1.step_left with
          | .ok (t2, _) => .ok (s1, t2)
          | .error e => .error e
      | some .right =>
          match t1.step_right with
          | .ok (t2, _) => .ok (s1, t2)
          | .error e => .error e

/-- Outcome of an engine run.  In Rust `run_states` returns the bare state
type `S`; a panic (boundary violation, failed upgrade) aborts the process,
which we embed as the `panicked` constructor, and `outOfFuel` is the model
artifact standing for a run that exceeds the fuel budget. -/
inductive RunOutcome (S Alphabet : Type) where
  | halted (s : S) (t : TuringTape Alphabet)
  | panicked (e : TapeError)
  | outOfFuel
deriving DecidableEq

/-- Embeds `TuringTape::run_states`: `while !end_states.contains(&state) {
state.step(tape) }`, returning the final state (with the final tape). -/
def run_states {S Alphabet : Type} [DecidableEq S] (f : IntStep S Alphabet)
    (fuel : Nat) (end_states : List S) (s : S) (t : TuringTape Alphabet) :
    RunOutcome S Alphabet :=
  if s ∈ end_states then .halted s t
  else
    match fuel with
    | 0 => .outOfFuel
    | k + 1 =>
        match TuringStates.step f s t with
        | .error e => .panicked e
        | .ok (s', t') => run_states f k end_states s' t'

/-- Outcome of `TuringStates::run_until_end`, which in Rust returns the pair
(final state, tape contents as a `Vec`). -/
inductive RunVecOutcome (S Alphabet : Type) where
  | done (s : S) (v : List Alphabet)
  | panicked (e : TapeError)
  | outOfFuel
deriving DecidableEq

/-- Embeds `TuringStates::run_until_end`: build a fresh tape from
(`empty_token`, `start_token`, `initial_state`), run the machine to a
terminal state, and return it with the tape converted to a sequence. -/
def run_until_end {S Alphabet : Type} [DecidableEq S] (f : IntStep S Alphabet)
    (fuel vfuel : Nat) (start_state : S) (end_states : List S)
    (empty_token start_token : Alphabet) (initial_state : List Alphabet) :
    RunVecOutcome S Alphabet :=
  let tape := TuringTape.new empty_token start_token initial_state
  match run_states f fuel end_states start_state tape with
  | .halted s t =>
      match TuringTape.toVec vfuel t with
      | .ok (v, _) => .done s v
      | .error e => .panicked e
  | .panicked e => .panicked e
  | .outOfFuel => .outOfFuel

/-- The alphabet of the integration tests (`tests/replace-ones.rs`). -/
inductive Alphabet where
  | Delta
  | Zero
  | One
deriving DecidableEq

/-- The states of the replace-ones machine (`tests/replace-ones.rs`). -/
inductive States where
  | Start
  | Started
  | ValidEnd
deriving DecidableEq

/-- The replace-ones machine of `tests/replace-ones.rs`, translated to the
transition contract of `src/lib.rs` (the test file's trait variant mutates
`self` and uses a `Move::Stay` variant; in the library contract an in-place
state mutation is the optional next state and "stay" is the absent
movement).  `ValidEnd` panics in the test ("should be including in the end
states"); the run below never invokes it, and the translation gives it the
identity transition. -/
def replaceOnesStep : IntStep States Alphabet := fun s tok =>
  match s with
  | States.Start => (some States.Started, none, some Move.right)
  | States.ValidEnd => (none, none, none)
  | States.Started =>
      match tok with
      | Alphabet.Zero => (none, none, some Move.right)
      | Alphabet.One => (none, some Alphabet.Zero, some Move.right)
      | Alphabet.Delta => (some States.ValidEnd, none, none)


/-! ## Basic list helpers -/

/-- Setting a list index to the value it already holds is the identity. -/
theorem list_set_same {β : Type} {l : List β} {i : Nat} {a : β}
    (h : l[i]? = some a) : l.set i a = l := by
  induction l generalizing i with
  | nil => simp at h
  | cons x xs ih =>
      cases i with
      | zero =>
          simp only [List.getElem?_cons_zero, Option.some.injEq] at h
          simp [List.set, h]
      | succ j =>
          simp only [List.getElem?_cons_succ] at h
          simp [List.set, ih h]

/-! ## Lemmas about `append` and `new` -/

namespace TuringTape

variable {Alphabet : Type}

/-- Characterization of `NextWF` through optional indexing. -/
theorem nextWF_iff {t : TuringTape Alphabet} :
    t.NextWF ↔ ∀ i nd, t.cells[i]? = some nd →
      nd.next = if i + 1 < t.cells.length then some (i + 1) else none := by
  constructor
  · intro h i nd hg
    have hi : i < t.cells.length := by
      by_contra hn
      rw [List.getElem?_eq_none_iff.mpr (Nat.le_of_not_lt hn)] at hg
      exact Option.noConfusion hg
    have hx := h i hi
    rw [List.getElem?_eq_getElem hi] at hg
    injection hg with hg
    rw [← hg, hx]
  · intro h i hi
    exact h i _ (List.getElem?_eq_getElem hi)

/-- Unfolding of the cell list produced by `append`. -/
theorem append_cells (t : TuringTape Alphabet) (tok : Alphabet) :
    (t.append tok).cells =
      (match t.cells[t.cells.length - 1]? with
       | some lastNode => t.cells.set (t.cells.length - 1)
           { lastNode with next := some t.cells.length }
       | none => t.cells) ++ [{ next := none, data := tok }] := rfl

theorem append_empty (t : TuringTape Alphabet) (tok : Alphabet) :
    (t.append tok).empty = t.empty := by
  unfold append
  cases h : t.cells[t.cells.length - 1]? <;> simp [h]

theorem append_cursor (t : TuringTape Alphabet) (tok : Alphabet) :
    (t.append tok).cursor = t.cursor := by
  unfold append
  cases h : t.cells[t.cells.length - 1]? <;> simp [h]

theorem append_length (t : TuringTape Alphabet) (tok : Alphabet) :
    (t.append tok).cells.length = t.cells.length + 1 := by
  rw [append_cells]
  cases h : t.cells[t.cells.length - 1]? <;> simp [h]

theorem append_dataList (t : TuringTape Alphabet) (tok : Alphabet) :
    (t.append tok).dataList = t.dataList ++ [tok] := by
  unfold dataList
  rw [append_cells]
  cases h : t.cells[t.cells.length - 1]? with
  | none => simp [h]
  | some lastNode =>
      have hset : (t.cells.map Node.data).set (t.cells.length - 1) lastNode.data
          = t.cells.map Node.data := by
        apply list_set_same
        rw [List.getElem?_map, h]
        rfl
      simp only [List.map_append, List.map_set]
      rw [hset]
      simp

/-- `append` preserves the forward-link well-formedness. -/
theorem append_nextWF {t : TuringTape Alphabet} (tok : Alphabet)
    (h : t.NextWF) : (t.append tok).NextWF := by
  rw [nextWF_iff]
  intro i nd hg
  rw [append_length]
  rw [append_cells] at hg
  cases hcells : t.cells[t.cells.length - 1]? with
  | none =>
      have hlen : t.cells.length = 0 := by
        by_contra hc
        rw [List.getElem?_eq_getElem (by omega)] at hcells
        exact Option.noConfusion hcells
      rw [hcells] at hg
      rw [List.eq_nil_of_length_eq_zero hlen] at hg
      cases i with
      | zero =>
          simp only [List.nil_append, List.getElem?_cons_zero,
            Option.some.injEq] at hg
          rw [← hg, hlen]
          simp
      | succ j =>
          simp at hg
  | some lastNode =>
      have hn1 : t.cells.length - 1 < t.cells.length := by
        by_contra hc
        rw [List.getElem?_eq_none_iff.mpr (Nat.le_of_not_lt hc)] at hcells
        exact Option.noConfusion hcells
      rw [hcells] at hg
      by_cases hi : i < t.cells.length
      · rw [List.getElem?_append_left (by simpa using hi)] at hg
        by_cases hieq : i = t.cells.length - 1
        · subst hieq
          rw [List.getElem?_set_self (by simpa using hn1)] at hg
          injection hg with hg
          rw [← hg]
          simp only
          rw [if_pos (by omega)]
          congr 1
          omega
        · rw [List.getElem?_set_ne (fun hc => hieq hc.symm)] at hg
          have hnd := nextWF_iff.mp h i nd hg
          have hi1 : i + 1 < t.cells.length := by omega
          rw [if_pos hi1] at hnd
          rw [hnd, if_pos (by omega)]
      · have hge : t.cells.length ≤ i := Nat.le_of_not_lt hi
        rw [List.getElem?_append_right (by simpa using hge)] at hg
        simp only [List.length_set] at hg
        rcases Nat.eq_or_lt_of_le hge with heq | hlt
        · rw [← heq, Nat.sub_self] at hg
          simp only [List.getElem?_cons_zero, Option.some.injEq] at hg
          rw [← hg]
          simp only
          rw [if_neg (by omega)]
        · rw [List.getElem?_eq_none_iff.mpr (by simp; omega)] at hg
          exact Option.noConfusion hg

/-- The effect of folding `append` over a list of tokens (the loop in
`TuringTape::new`). -/
theorem foldl_append_spec (l : List Alphabet) (t : TuringTape Alphabet) :
    (List.foldl append t l).empty = t.empty ∧
    (List.foldl append t l).cursor = t.cursor ∧
    (List.foldl append t l).dataList = t.dataList ++ l ∧
    (t.NextWF → (List.foldl append t l).NextWF) := by
  induction l generalizing t with
  | nil => simp
  | cons x xs ih =>
      simp only [List.foldl_cons]
      obtain ⟨h1, h2, h3, h4⟩ := ih (t.append x)
      refine ⟨by rw [h1, append_empty], by rw [h2, append_cursor], ?_, ?_⟩
      · rw [h3, append_dataList]; simp
      · intro hwf
        exact h4 (append_nextWF x hwf)

theorem startTape_nextWF (empty start : Alphabet) :
    (startTape empty start).NextWF := by
  intro i hi
  simp only [startTape, List.length_cons, List.length_nil] at hi ⊢
  have : i = 0 := by omega
  subst this
  simp [startTape]

theorem new_cursor (empty start : Alphabet) (initial : List Alphabet) :
    (new empty start initial).cursor = 0 :=
  (foldl_append_spec initial (startTape empty start)).2.1

theorem new_empty (empty start : Alphabet) (initial : List Alphabet) :
    (new empty start initial).empty = empty :=
  (foldl_append_spec initial (startTape empty start)).1

theorem new_dataList (empty start : Alphabet) (initial : List Alphabet) :
    (new empty start initial).dataList = start :: initial := by
  have h := (foldl_append_spec initial (startTape empty start)).2.2.1
  unfold new
  rw [h]
  simp [dataList, startTape]

theorem new_nextWF (empty start : Alphabet) (initial : List Alphabet) :
    (new empty start initial).NextWF :=
  (foldl_append_spec initial (startTape empty start)).2.2.2
    (startTape_nextWF empty start)

theorem new_length (empty start : Alphabet) (initial : List Alphabet) :
    (new empty start initial).cells.length = initial.length + 1 := by
  have h := new_dataList empty start initial
  have h2 : (new empty start initial).dataList.length = initial.length + 1 := by
    rw [h]; simp
  simpa [dataList] using h2

theorem new_Invariant (empty start : Alphabet) (initial : List Alphabet) :
    (new empty start initial).Invariant := by
  unfold Invariant
  rw [new_cursor, new_length]
  omega

end TuringTape

/-! ## Lemmas about the cursor operations -/

namespace TuringTape

variable {Alphabet : Type}

theorem get_cursor_eq {t : TuringTape Alphabet} {nd : Node Alphabet}
    (h : t.cells[t.cursor]? = some nd) : t.get_cursor = some nd.data := by
  unfold get_cursor
  rw [h]
  rfl

theorem get_cursor_of_invariant {t : TuringTape Alphabet} (h : t.Invariant) :
    ∃ a, t.get_cursor = some a := by
  have hlt : t.cursor < t.cells.length := h
  exact ⟨_, get_cursor_eq (List.getElem?_eq_getElem hlt)⟩

theorem set_cursor_cursor (t : TuringTape Alphabet) (v : Alphabet) :
    (t.set_cursor v).1.cursor = t.cursor := by
  unfold set_cursor
  cases h : t.cells[t.cursor]? <;> simp [h]

theorem set_cursor_length (t : TuringTape Alphabet) (v : Alphabet) :
    (t.set_cursor v).1.cells.length = t.cells.length := by
  unfold set_cursor
  cases h : t.cells[t.cursor]? <;> simp [h]

theorem set_cursor_empty (t : TuringTape Alphabet) (v : Alphabet) :
    (t.set_cursor v).1.empty = t.empty := by
  unfold set_cursor
  cases h : t.cells[t.cursor]? <;> simp [h]

theorem set_cursor_invariant {t : TuringTape Alphabet} (v : Alphabet)
    (h : t.Invariant) : (t.set_cursor v).1.Invariant := by
  unfold Invariant
  rw [set_cursor_cursor, set_cursor_length]
  exact h

theorem set_cursor_next (t : TuringTape Alphabet) (v : Alphabet) (i : Nat) :
    ((t.set_cursor v).1.cells[i]?).map Node.next =
      (t.cells[i]?).map Node.next := by
  unfold set_cursor
  cases h : t.cells[t.cursor]? with
  | none => simp [h]
  | some nd =>
      by_cases hic : t.cursor = i
      · subst hic
        have hlt : t.cursor < t.cells.length := by
          by_contra hc
          rw [List.getElem?_eq_none_iff.mpr (Nat.le_of_not_lt hc)] at h
          exact Option.noConfusion h
        rw [List.getElem?_set_self (by simpa using hlt), h]
        rfl
      · rw [List.getElem?_set_ne hic]

theorem set_cursor_nextWF {t : TuringTape Alphabet} (v : Alphabet)
    (h : t.NextWF) : (t.set_cursor v).1.NextWF := by
  rw [nextWF_iff]
  intro i nd hg
  rw [set_cursor_length]
  have hmap := set_cursor_next t v i
  rw [hg] at hmap
  cases hsrc : t.cells[i]? with
  | none => rw [hsrc] at hmap; simp at hmap
  | some nd0 =>
      rw [hsrc] at hmap
      simp only [Option.map_some'] at hmap
      injection hmap with hmap
      rw [hmap]
      exact nextWF_iff.mp h i nd0 hsrc

theorem set_cursor_dataList {t : TuringTape Alphabet} {v : Alphabet}
    (h : t.Invariant) :
    (t.set_cursor v).1.dataList = t.dataList.set t.cursor v := by
  have hlt : t.cursor < t.cells.length := h
  unfold set_cursor dataList
  rw [List.getElem?_eq_getElem hlt]
  simp [List.map_set]

/-- C3 groundwork: `step_left` at the start cell is the boundary panic. -/
theorem step_left_at_start {t : TuringTape Alphabet} (h : t.cursor = 0) :
    t.step_left = Except.error TapeError.boundaryViolation := by
  unfold step_left
  rw [h]

theorem step_left_ok {t : TuringTape Alphabet} {j : Nat} {nd : Node Alphabet}
    (hc : t.cursor = j + 1) (hj : t.cells[j]? = some nd) :
    t.step_left = Except.ok ({ t with cursor := j }, nd.data) := by
  unfold step_left
  simp only [hc]
  unfold get_cursor
  simp only [hj]
  rfl

/-- Whenever `step_left` succeeds, the resulting tape satisfies the
reachability invariant and keeps the cells unchanged. -/
theorem step_left_inv {t t' : TuringTape Alphabet} {a : Alphabet}
    (h : t.step_left = .ok (t', a)) :
    t'.Invariant ∧ t'.cells = t.cells ∧ t'.empty = t.empty ∧
      t'.cursor + 1 = t.cursor := by
  unfold step_left at h
  cases hc : t.cursor with
  | zero => rw [hc] at h; simp at h
  | succ j =>
      rw [hc] at h
      simp only at h
      cases hg : ({ t with cursor := j } : TuringTape Alphabet).get_cursor with
      | none => rw [hg] at h; simp at h
      | some b =>
          rw [hg] at h
          simp only [Except.ok.injEq, Prod.mk.injEq] at h
          obtain ⟨ht, hb⟩ := h
          subst ht
          unfold get_cursor at hg
          simp only at hg
          have hj : j < t.cells.length := by
            by_contra hcon
            rw [List.getElem?_eq_none_iff.mpr (Nat.le_of_not_lt hcon)] at hg
            simp at hg
          exact ⟨hj, rfl, rfl, rfl⟩

/-- Whenever `step_right` succeeds, the resulting tape satisfies the
reachability invariant. -/
theorem step_right_inv {t t' : TuringTape Alphabet} {a : Alphabet}
    (h : t.step_right = .ok (t', a)) : t'.Invariant := by
  unfold step_right at h
  split at h
  · exact absurd h (by simp)
  · split at h
    · split at h
      · rename_i nd j hnext target hj
        simp only [Except.ok.injEq, Prod.mk.injEq] at h
        obtain ⟨ht, _⟩ := h
        subst ht
        unfold Invariant
        simp only
        by_contra hcon
        rw [List.getElem?_eq_none_iff.mpr (Nat.le_of_not_lt hcon)] at hj
        exact Option.noConfusion hj
      · exact absurd h (by simp)
    · dsimp only at h
      split at h
      · rename_i nd hnext b hg
        simp only [Except.ok.injEq, Prod.mk.injEq] at h
        obtain ⟨ht, _⟩ := h
        subst ht
        unfold Invariant
        simp only
        rw [append_length]
        omega
      · exact absurd h (by simp)

end TuringTape

/-! ## Characterization of `step_right` on well-formed tapes -/

namespace TuringTape

variable {Alphabet : Type}

/-- The cell appended by `append` sits at index `t.cells.length` of the new
tape and holds the token with no forward link. -/
theorem append_last (t : TuringTape Alphabet) (tok : Alphabet) :
    (t.append tok).cells[t.cells.length]? =
      some { next := none, data := tok } := by
  rw [append_cells]
  cases h : t.cells[t.cells.length - 1]? with
  | none =>
      have hlen : t.cells.length = 0 := by
        by_contra hc
        rw [List.getElem?_eq_getElem (by omega)] at h
        exact Option.noConfusion h
      rw [List.eq_nil_of_length_eq_zero hlen]
      simp
  | some lastNode =>
      have hcat := List.getElem?_concat_length
        (t.cells.set (t.cells.length - 1) { lastNode with next := some t.cells.length })
        ({ next := none, data := tok } : Node Alphabet)
      rw [List.length_set] at hcat
      exact hcat

/-- On a well-formed tape whose cursor is not at `last`, `step_right` simply
moves the cursor one cell to the right. -/
theorem step_right_ok_move {t : TuringTape Alphabet} {nd nd1 : Node Alphabet}
    (hwf : t.NextWF) (hc : t.cells[t.cursor]? = some nd)
    (hn : t.cursor + 1 < t.cells.length)
    (hnd1 : t.cells[t.cursor + 1]? = some nd1) :
    t.step_right = .ok ({ t with cursor := t.cursor + 1 }, nd1.data) := by
  have hnext : nd.next = some (t.cursor + 1) := by
    have hx := nextWF_iff.mp hwf t.cursor nd hc
    rw [if_pos hn] at hx
    exact hx
  unfold step_right cursorNode
  rw [hc]
  simp only [hnext]
  rw [hnd1]

/-- On a well-formed tape whose cursor is at `last`, `step_right`
materializes a new cell holding `empty` and moves the cursor onto it. -/
theorem step_right_ok_append {t : TuringTape Alphabet} {nd : Node Alphabet}
    (hwf : t.NextWF) (hc : t.cells[t.cursor]? = some nd)
    (hn : t.cursor + 1 = t.cells.length) :
    t.step_right =
      .ok ({ t.append t.empty with cursor := t.cells.length }, t.empty) := by
  have hnext : nd.next = none := by
    have hx := nextWF_iff.mp hwf t.cursor nd hc
    rw [if_neg (by omega)] at hx
    exact hx
  unfold step_right cursorNode
  rw [hc]
  simp only [hnext]
  have hget : ({ t.append t.empty with cursor := t.cells.length }
      : TuringTape Alphabet).get_cursor = some t.empty := by
    unfold get_cursor
    simp only
    rw [append_last]
    rfl
  rw [hget]

end TuringTape

/-! ## The snapshot loops -/

namespace TuringTape

variable {Alphabet : Type}

/-- The left-walking loop of the snapshot lands on the start cell without
touching anything else, whenever the fuel covers the cursor index. -/
theorem walkLeft_ok :
    ∀ (n : Nat) (t : TuringTape Alphabet) (fuel : Nat), t.Invariant →
      t.cursor = n → n ≤ fuel →
      walkLeft fuel t = .ok { t with cursor := 0 } := by
  intro n
  induction n with
  | zero =>
      intro t fuel h hn hf
      unfold walkLeft
      rw [if_pos hn]
      rw [← hn]
  | succ k ih =>
      intro t fuel h hn hf
      unfold walkLeft
      rw [if_neg (by omega)]
      have hk : k < t.cells.length := by
        have hlt : t.cursor < t.cells.length := h
        omega
      rw [step_left_ok hn (List.getElem?_eq_getElem hk)]
      cases fuel with
      | zero => exact absurd hf (by omega)
      | succ f =>
          dsimp only
          exact ih ({ t with cursor := k }) f hk rfl (by omega)

/-- The right-walking loop of the snapshot collects every symbol from the
cursor to the rightmost cell and parks the cursor on the rightmost cell,
provided the fuel covers the distance. -/
theorem walkRight_ok (k : Nat) :
    ∀ (t : TuringTape Alphabet) (fuel : Nat) (acc : List Alphabet),
      t.NextWF → t.cursor + k + 1 = t.cells.length → k ≤ fuel →
      walkRight fuel t acc =
        .ok (acc ++ t.dataList.drop t.cursor,
          { t with cursor := t.cells.length - 1 }) := by
  induction k with
  | zero =>
      intro t fuel acc hwf hk hfuel
      have hc : t.cursor < t.cells.length := by omega
      have hnd : t.cells[t.cursor]? = some t.cells[t.cursor] :=
        List.getElem?_eq_getElem hc
      have hnext : (t.cells[t.cursor]).next = none := by
        have hx := nextWF_iff.mp hwf t.cursor _ hnd
        rw [if_neg (by omega)] at hx
        exact hx
      unfold walkRight cursorNode
      rw [hnd]
      simp only [hnext]
      have hdrop : t.dataList.drop t.cursor = [(t.cells[t.cursor]).data] := by
        have hdl : t.cursor < t.dataList.length := by
          unfold dataList; simpa using hc
        rw [List.drop_eq_getElem_cons hdl]
        have h1 : t.dataList.drop (t.cursor + 1) = [] :=
          List.drop_eq_nil_of_le (by unfold dataList; simp; omega)
        rw [h1]
        unfold dataList
        simp
      rw [hdrop]
      have ht : ({ t with cursor := t.cells.length - 1 } : TuringTape Alphabet)
          = t := by
        have : t.cells.length - 1 = t.cursor := by omega
        rw [this]
      rw [ht]
  | succ m ih =>
      intro t fuel acc hwf hk hfuel
      have hc : t.cursor < t.cells.length := by omega
      have hnd : t.cells[t.cursor]? = some t.cells[t.cursor] :=
        List.getElem?_eq_getElem hc
      have hc1 : t.cursor + 1 < t.cells.length := by omega
      have hnd1 : t.cells[t.cursor + 1]? = some t.cells[t.cursor + 1] :=
        List.getElem?_eq_getElem hc1
      have hnext : (t.cells[t.cursor]).next = some (t.cursor + 1) := by
        have hx := nextWF_iff.mp hwf t.cursor _ hnd
        rw [if_pos hc1] at hx
        exact hx
      unfold walkRight cursorNode
      rw [hnd]
      simp only [hnext]
      cases fuel with
      | zero => omega
      | succ f =>
          simp only
          rw [step_right_ok_move hwf hnd hc1 hnd1]
          dsimp only
          have hrec := ih ({ t with cursor := t.cursor + 1 })
            f (acc ++ [(t.cells[t.cursor]).data]) hwf (by simp; omega) (by omega)
          dsimp only at hrec
          rw [hrec]
          have hdrop : t.dataList.drop t.cursor
              = (t.cells[t.cursor]).data :: t.dataList.drop (t.cursor + 1) := by
            have hdl : t.cursor < t.dataList.length := by
              unfold dataList; simpa using hc
            rw [List.drop_eq_getElem_cons hdl]
            unfold dataList
            simp
          rw [hdrop]
          simp [dataList]

/-- The snapshot of a well-formed tape returns exactly the symbols on the
tape and leaves the tape (cells and cursor alike) unchanged. -/
theorem toVec_ok {t : TuringTape Alphabet} (hinv : t.Invariant) (hwf : t.NextWF)
    {fuel : Nat} (hfuel : t.cells.length - 1 ≤ fuel) :
    toVec fuel t = .ok (t.dataList, t) := by
  have hlen : 0 < t.cells.length := by
    have hlt : t.cursor < t.cells.length := hinv
    omega
  unfold toVec
  rw [walkLeft_ok t.cursor t fuel hinv rfl
    (by have hlt : t.cursor < t.cells.length := hinv; omega)]
  simp only
  have hwr := walkRight_ok (t.cells.length - 1)
    ({ t with cursor := 0 }) fuel [] hwf (by simp; omega) hfuel
  rw [hwr]
  simp [dataList]

theorem nextWF_of_cells_eq {t1 t2 : TuringTape Alphabet}
    (h : t1.cells = t2.cells) (h2 : t2.NextWF) : t1.NextWF := by
  unfold NextWF at h2 ⊢
  simp only [h]
  exact h2

/-- With the forward link of the cursor node present, a successful
`step_right` is a pure cursor move: the cells are untouched. -/
theorem step_right_cells_of_next {t t' : TuringTape Alphabet} {a : Alphabet}
    {nd : Node Alphabet} {j : Nat}
    (hc : t.cursorNode = some nd) (hn : nd.next = some j)
    (h : t.step_right = .ok (t', a)) :
    t' = { t with cursor := j } := by
  unfold step_right at h
  rw [hc] at h
  simp only [hn] at h
  split at h
  · simp only [Except.ok.injEq, Prod.mk.injEq] at h
    exact h.1.symm
  · exact Except.noConfusion h

/-- A successful left-walk ends on the start cell with cells and empty
symbol untouched. -/
theorem walkLeft_shape :
    ∀ (fuel : Nat) (t t1 : TuringTape Alphabet),
      walkLeft fuel t = .ok t1 →
      t1.cells = t.cells ∧ t1.empty = t.empty ∧ t1.cursor = 0 := by
  intro fuel
  induction fuel with
  | zero =>
      intro t t1 h
      unfold walkLeft at h
      split at h
      · rename_i h0
        injection h with h
        subst h
        exact ⟨rfl, rfl, h0⟩
      · split at h
        · exact Except.noConfusion h
        · exact Except.noConfusion h
  | succ k ih =>
      intro t t1 h
      unfold walkLeft at h
      split at h
      · rename_i h0
        injection h with h
        subst h
        exact ⟨rfl, rfl, h0⟩
      · split at h
        · exact Except.noConfusion h
        · rename_i t' a hs
          dsimp only at h
          obtain ⟨c1, c2, c3⟩ := ih t' t1 h
          obtain ⟨_, hcells, hempty, _⟩ := step_left_inv hs
          exact ⟨by rw [c1, hcells], by rw [c2, hempty], c3⟩

/-- A successful right-walk leaves cells and empty symbol untouched (the
loop only ever takes the pure-move branch of `step_right`). -/
theorem walkRight_shape :
    ∀ (fuel : Nat) (t : TuringTape Alphabet) (acc v : List Alphabet)
      (t1 : TuringTape Alphabet),
      walkRight fuel t acc = .ok (v, t1) →
      t1.cells = t.cells ∧ t1.empty = t.empty := by
  intro fuel
  induction fuel with
  | zero =>
      intro t acc v t1 h
      unfold walkRight at h
      split at h
      · exact Except.noConfusion h
      · split at h
        · simp only [Except.ok.injEq, Prod.mk.injEq] at h
          rw [← h.2]
          exact ⟨rfl, rfl⟩
        · exact Except.noConfusion h
  | succ k ih =>
      intro t acc v t1 h
      unfold walkRight at h
      split at h
      · exact Except.noConfusion h
      · rename_i nd hc
        split at h
        · simp only [Except.ok.injEq, Prod.mk.injEq] at h
          rw [← h.2]
          exact ⟨rfl, rfl⟩
        · rename_i j hn
          simp only at h
          split at h
          · exact Except.noConfusion h
          · rename_i t' a hs
            have ht' := step_right_cells_of_next hc hn hs
            obtain ⟨c1, c2⟩ := ih t' _ v t1 h
            rw [ht'] at c1 c2
            exact ⟨c1, c2⟩

/-- A successful snapshot restores the cursor and leaves cells and empty
symbol untouched: the resulting tape is the input tape. -/
theorem toVec_shape {fuel : Nat} {t t1 : TuringTape Alphabet}
    {v : List Alphabet} (h : toVec fuel t = .ok (v, t1)) : t1 = t := by
  unfold toVec at h
  split at h
  · exact Except.noConfusion h
  · rename_i t0 hwl
    split at h
    · exact Except.noConfusion h
    · rename_i p v' t2 hwr
      simp only [Except.ok.injEq, Prod.mk.injEq] at h
      obtain ⟨_, hback⟩ := h
      obtain ⟨w1, w2, _⟩ := walkLeft_shape fuel t t0 hwl
      obtain ⟨r1, r2⟩ := walkRight_shape _ t0 [] v' t2 hwr
      rw [← hback]
      have hc : t2.cells = t.cells := by rw [r1, w1]
      have he : t2.empty = t.empty := by rw [r2, w2]
      calc ({ t2 with cursor := t.cursor } : TuringTape Alphabet)
          = { empty := t.empty, cells := t.cells, cursor := t.cursor } := by
            rw [← hc, ← he]
        _ = t := rfl

end TuringTape

/-! ## The engine: step decomposition and the run loop -/

/-- How the engine applies a movement directive returned by the transition
contract: no directive leaves the tape alone, `Move::Left`/`Move::Right`
perform the corresponding (successful) tape step. -/
inductive MoveApplied {Alphabet : Type} :
    Option Move → TuringTape Alphabet → TuringTape Alphabet → Prop where
  | stay {t : TuringTape Alphabet} : MoveApplied none t t
  | left {t t' : TuringTape Alphabet} {a : Alphabet} :
      t.step_left = .ok (t', a) → MoveApplied (some Move.left) t t'
  | right {t t' : TuringTape Alphabet} {a : Alphabet} :
      t.step_right = .ok (t', a) → MoveApplied (some Move.right) t t'

/-- The run loop as the specification words it: either the current state is
terminal and the run halts there with the tape untouched, or the engine
reads the symbol under the cursor, invokes the transition contract on
(current state, read symbol), writes the returned symbol (if any), applies
the returned movement (if any), adopts the returned next state (if any),
and continues. -/
inductive RunSpec {S Alphabet : Type} (f : IntStep S Alphabet) (ends : List S) :
    S → TuringTape Alphabet → S → TuringTape Alphabet → Prop where
  | halt {s : S} {t : TuringTape Alphabet} :
      s ∈ ends → RunSpec f ends s t s t
  | go {s : S} {t t1 t2 : TuringTape Alphabet} {tok : Alphabet}
      {s' : S} {t' : TuringTape Alphabet} :
      s ∉ ends →
      t.get_cursor = some tok →
      t1 = (match (f s tok).2.1 with
            | some rep => (t.set_cursor rep).1
            | none => t) →
      MoveApplied (f s tok).2.2 t1 t2 →
      RunSpec f ends
        (match (f s tok).1 with | some st => st | none => s) t2 s' t' →
      RunSpec f ends s t s' t'

/-- A successful engine step decomposes into exactly the read/adopt/write/
move phases of the source. -/
theorem step_decomp {S Alphabet : Type} {f : IntStep S Alphabet} {s s' : S}
    {t t' : TuringTape Alphabet}
    (h : TuringStates.step f s t = .ok (s', t')) :
    ∃ tok, t.get_cursor = some tok ∧
      s' = (match (f s tok).1 with | some st => st | none => s) ∧
      MoveApplied (f s tok).2.2
        (match (f s tok).2.1 with
         | some rep => (t.set_cursor rep).1
         | none => t) t' := by
  unfold TuringStates.step at h
  split at h
  · exact Except.noConfusion h
  · rename_i tok htok
    dsimp only at h
    refine ⟨tok, htok, ?_⟩
    split at h
    · rename_i hmv
      simp only [Except.ok.injEq, Prod.mk.injEq] at h
      refine ⟨h.1.symm, ?_⟩
      rw [hmv, ← h.2]
      exact MoveApplied.stay
    · rename_i hmv
      split at h
      · rename_i t2 b hs
        simp only [Except.ok.injEq, Prod.mk.injEq] at h
        refine ⟨h.1.symm, ?_⟩
        rw [hmv]
        exact MoveApplied.left (h.2 ▸ hs)
      · exact Except.noConfusion h
    · rename_i hmv
      split at h
      · rename_i t2 b hs
        simp only [Except.ok.injEq, Prod.mk.injEq] at h
        refine ⟨h.1.symm, ?_⟩
        rw [hmv]
        exact MoveApplied.right (h.2 ▸ hs)
      · exact Except.noConfusion h

/-- `step_right` preserves the forward-link well-formedness. -/
theorem step_right_nextWF {Alphabet : Type} {t t' : TuringTape Alphabet}
    {a : Alphabet} (hwf : t.NextWF) (h : t.step_right = .ok (t', a)) :
    t'.NextWF := by
  unfold TuringTape.step_right at h
  split at h
  · exact Except.noConfusion h
  · split at h
    · split at h
      · simp only [Except.ok.injEq, Prod.mk.injEq] at h
        exact TuringTape.nextWF_of_cells_eq (by rw [← h.1]) hwf
      · exact Except.noConfusion h
    · dsimp only at h
      split at h
      · simp only [Except.ok.injEq, Prod.mk.injEq] at h
        exact TuringTape.nextWF_of_cells_eq (by rw [← h.1])
          (TuringTape.append_nextWF t.empty hwf)
      · exact Except.noConfusion h

/-- A successful engine step preserves the reachability invariant and the
forward-link well-formedness. -/
theorem step_preserves {S Alphabet : Type} {f : IntStep S Alphabet} {s s' : S}
    {t t' : TuringTape Alphabet} (hinv : t.Invariant) (hwf : t.NextWF)
    (h : TuringStates.step f s t = .ok (s', t')) :
    t'.Invariant ∧ t'.NextWF := by
  obtain ⟨tok, htok, hsi, hmv⟩ := step_decomp h
  have ht1 : (match (f s tok).2.1 with
      | some rep => (t.set_cursor rep).1
      | none => t).Invariant ∧
      (match (f s tok).2.1 with
      | some rep => (t.set_cursor rep).1
      | none => t).NextWF := by
    cases hrep : (f s tok).2.1 with
    | none => exact ⟨hinv, hwf⟩
    | some rep =>
        exact ⟨TuringTape.set_cursor_invariant rep hinv,
          TuringTape.set_cursor_nextWF rep hwf⟩
  generalize hT : (match (f s tok).2.1 with
      | some rep => (t.set_cursor rep).1
      | none => t) = t1 at ht1 hmv
  generalize (f s tok).2.2 = mv at hmv
  cases hmv with
  | stay => exact ht1
  | left hs =>
      obtain ⟨hi, hc, _, _⟩ := TuringTape.step_left_inv hs
      exact ⟨hi, TuringTape.nextWF_of_cells_eq hc ht1.2⟩
  | right hs =>
      exact ⟨TuringTape.step_right_inv hs, step_right_nextWF ht1.2 hs⟩

/-- Soundness of the run loop against the specified step relation: whenever
`run_states` halts, the returned state is terminal and the whole run is an
instance of `RunSpec`. -/
theorem run_states_sound {S Alphabet : Type} [DecidableEq S]
    {f : IntStep S Alphabet} :
    ∀ (fuel : Nat) (ends : List S) (s s' : S) (t t' : TuringTape Alphabet),
      run_states f fuel ends s t = .halted s' t' →
      s' ∈ ends ∧ RunSpec f ends s t s' t' := by
  intro fuel
  induction fuel with
  | zero =>
      intro ends s s' t t' h
      unfold run_states at h
      split at h
      · rename_i hmem
        simp only [RunOutcome.halted.injEq] at h
        obtain ⟨h1, h2⟩ := h
        subst h1
        subst h2
        exact ⟨hmem, RunSpec.halt hmem⟩
      · exact RunOutcome.noConfusion h
  | succ k ih =>
      intro ends s s' t t' h
      unfold run_states at h
      split at h
      · rename_i hmem
        simp only [RunOutcome.halted.injEq] at h
        obtain ⟨h1, h2⟩ := h
        subst h1
        subst h2
        exact ⟨hmem, RunSpec.halt hmem⟩
      · rename_i hmem
        dsimp only at h
        split at h
        · exact RunOutcome.noConfusion h
        · rename_i s1 t1 hs
          obtain ⟨hm, hr⟩ := ih ends s1 s' t1 t' h
          obtain ⟨tok, htok, hsi, hmv⟩ := step_decomp hs
          refine ⟨hm, RunSpec.go hmem htok rfl hmv ?_⟩
          rw [← hsi]
          exact hr

/-- Reconstruction of a successful engine step from its phases. -/
theorem step_recomp {S Alphabet : Type} {f : IntStep S Alphabet} {s : S}
    {t t2 : TuringTape Alphabet} {tok : Alphabet}
    (htok : t.get_cursor = some tok)
    (hmv : MoveApplied (f s tok).2.2
      (match (f s tok).2.1 with
       | some rep => (t.set_cursor rep).1
       | none => t) t2) :
    TuringStates.step f s t =
      .ok ((match (f s tok).1 with | some st => st | none => s), t2) := by
  unfold TuringStates.step
  rw [htok]
  dsimp only
  generalize hT : (match (f s tok).2.1 with
      | some rep => (t.set_cursor rep).1
      | none => t) = t1 at hmv ⊢
  cases hM : (f s tok).2.2 with
  | none =>
      rw [hM] at hmv
      cases hmv
      rfl
  | some mv =>
      rw [hM] at hmv
      cases mv with
      | left =>
          cases hmv with
          | left hs => rw [hs]
      | right =>
          cases hmv with
          | right hs => rw [hs]

/-- Completeness of the run loop: every run in the specified step relation
is realized by `run_states` for a large enough fuel budget. -/
theorem run_states_complete {S Alphabet : Type} [DecidableEq S]
    {f : IntStep S Alphabet} {ends : List S} {s s' : S}
    {t t' : TuringTape Alphabet} (h : RunSpec f ends s t s' t') :
    ∃ fuel, run_states f fuel ends s t = .halted s' t' := by
  induction h with
  | halt hmem =>
      refine ⟨0, ?_⟩
      unfold run_states
      rw [if_pos hmem]
  | go hmem htok ht1 hmv _ ih =>
      obtain ⟨fuel, hrun⟩ := ih
      refine ⟨fuel + 1, ?_⟩
      unfold run_states
      rw [if_neg hmem]
      rw [step_recomp htok (ht1 ▸ hmv)]
      exact hrun

/-- The run loop preserves the tape invariants. -/
theorem run_states_preserves {S Alphabet : Type} [DecidableEq S]
    {f : IntStep S Alphabet} :
    ∀ (fuel : Nat) (ends : List S) (s s' : S) (t t' : TuringTape Alphabet),
      t.Invariant → t.NextWF →
      run_states f fuel ends s t = .halted s' t' →
      t'.Invariant ∧ t'.NextWF := by
  intro fuel
  induction fuel with
  | zero =>
      intro ends s s' t t' hinv hwf h
      unfold run_states at h
      split at h
      · simp only [RunOutcome.halted.injEq] at h
        rw [← h.2]
        exact ⟨hinv, hwf⟩
      · exact RunOutcome.noConfusion h
  | succ k ih =>
      intro ends s s' t t' hinv hwf h
      unfold run_states at h
      split at h
      · simp only [RunOutcome.halted.injEq] at h
        rw [← h.2]
        exact ⟨hinv, hwf⟩
      · dsimp only at h
        split at h
        · exact RunOutcome.noConfusion h
        · rename_i s1 t1 hs
          obtain ⟨hi1, hw1⟩ := step_preserves hinv hwf hs
          exact ih ends s1 s' t1 t' hi1 hw1 h

/-- A terminal initial state halts the loop before anything happens. -/
theorem run_states_at_terminal {S Alphabet : Type} [DecidableEq S]
    (f : IntStep S Alphabet) (fuel : Nat) (ends : List S) (s : S)
    (t : TuringTape Alphabet) (hmem : s ∈ ends) :
    run_states f fuel ends s t = .halted s t := by
  unfold run_states
  rw [if_pos hmem]

/-- A step failure aborts the run immediately with the panic. -/
theorem run_states_panics {S Alphabet : Type} [DecidableEq S]
    (f : IntStep S Alphabet) (fuel : Nat) (ends : List S) (s : S)
    (t : TuringTape Alphabet) (e : TapeError) (hmem : s ∉ ends)
    (hstep : TuringStates.step f s t = .error e) :
    run_states f (fuel + 1) ends s t = .panicked e := by
  unfold run_states
  rw [if_neg hmem]
  rw [hstep]

/-! ## Auxiliary helpers for the claim statements -/

/-- A relation between `get_cursor` and the symbol sequence. -/
theorem TuringTape.get_cursor_dataList {Alphabet : Type}
    (t : TuringTape Alphabet) : t.get_cursor = t.dataList[t.cursor]? := by
  unfold TuringTape.get_cursor TuringTape.dataList
  rw [List.getElem?_map]

/-- The node that was `last` before an `append` carries the new forward
link afterwards, with its symbol unchanged. -/
theorem TuringTape.append_at_old_last {Alphabet : Type}
    {t : TuringTape Alphabet} {nd : Node Alphabet} (tok : Alphabet)
    (h : t.cells[t.cells.length - 1]? = some nd) :
    (t.append tok).cells[t.cells.length - 1]? =
      some { next := some t.cells.length, data := nd.data } := by
  have hlt : t.cells.length - 1 < t.cells.length := by
    by_contra hc
    rw [List.getElem?_eq_none_iff.mpr (Nat.le_of_not_lt hc)] at h
    exact Option.noConfusion h
  rw [TuringTape.append_cells, h]
  rw [List.getElem?_append_left (by simpa using hlt)]
  rw [List.getElem?_set_self (by simpa using hlt)]

/-- The machine used to exhibit the boundary-violation behaviour of the
engine: it always asks for a left move and never reaches a terminal
state. -/
def leftLoopStep : IntStep Unit Alphabet := fun _ _ =>
  (none, none, some Move.left)

/-! ## Claim theorems -/

/-- C1: for every transition contract, initial state, terminal-state set and
tape, `run_states` repeatedly reads the symbol under the cursor, invokes the
contract on (current state, read symbol), writes the returned symbol,
applies the returned movement and adopts the returned next state, halting
exactly when the adopted state is a member of the terminal-state set, and
returns that state: every halted run is an instance of the `RunSpec` loop
relation ending in a terminal state, and conversely every `RunSpec` run is
realized by `run_states`. -/
theorem c1_run_states_follows_contract {S Alphabet : Type} [DecidableEq S]
    (f : IntStep S Alphabet) (fuel : Nat) (ends : List S) (s s' : S)
    (t t' : TuringTape Alphabet) :
    (run_states f fuel ends s t = RunOutcome.halted s' t' →
      s' ∈ ends ∧ RunSpec f ends s t s' t') ∧
    (RunSpec f ends s t s' t' →
      ∃ fl, run_states f fl ends s t = RunOutcome.halted s' t') :=
  ⟨run_states_sound fuel ends s s' t t', run_states_complete⟩

/-- Witness for C1 at a concrete machine and tape. -/
theorem c1_witness :
    (States.ValidEnd ∈ [States.ValidEnd] ∧
      RunSpec replaceOnesStep [States.ValidEnd] States.ValidEnd
        (TuringTape.new Alphabet.Delta Alphabet.Delta []) States.ValidEnd
        (TuringTape.new Alphabet.Delta Alphabet.Delta [])) ∧
    (∃ fl, run_states replaceOnesStep fl [States.ValidEnd] States.ValidEnd
        (TuringTape.new Alphabet.Delta Alphabet.Delta [])
      = RunOutcome.halted States.ValidEnd
          (TuringTape.new Alphabet.Delta Alphabet.Delta [])) :=
  ⟨(c1_run_states_follows_contract replaceOnesStep 0 [States.ValidEnd]
      States.ValidEnd States.ValidEnd _ _).1 (by rfl),
   (c1_run_states_follows_contract replaceOnesStep 0 [States.ValidEnd]
      States.ValidEnd States.ValidEnd _ _).2
      (RunSpec.halt (by simp))⟩

/-- C3: whenever the cursor is at the start cell (the cell with no left
link, i.e. index 0), `step_left` fails with the boundary violation — it
never stays in place, wraps, or returns a symbol. -/
theorem c3_step_left_boundary {Alphabet : Type} (t : TuringTape Alphabet)
    (h : t.cursor = 0) :
    t.step_left = Except.error TapeError.boundaryViolation :=
  TuringTape.step_left_at_start h

/-- Witness for C3 at a concrete tape. -/
theorem c3_witness :
    (TuringTape.new Alphabet.Delta Alphabet.Zero [Alphabet.One]).step_left
      = Except.error TapeError.boundaryViolation :=
  c3_step_left_boundary _ (by rfl)

/-- C4 counterexample: a machine whose first transition moves left at the
start cell makes the engine run abort with the boundary-violation panic
(the model of a process crash), not halt with an error value: the Rust
`run_states` returns the bare state type, so the fatal conditions are not
surfaced as an explicit error result in the engine's result type. -/
theorem c4_counterexample :
    run_states leftLoopStep 5 [] () (TuringTape.new Alphabet.Delta Alphabet.Delta [])
      = RunOutcome.panicked TapeError.boundaryViolation := by
  rfl

/-- C4 (amended): both fatal conditions stop the run immediately, but as
process-aborting panics, not as error values in the engine's result type:
whenever a step raises a tape error, the loop aborts at once with exactly
that panic. -/
theorem c4_panic_aborts_run {S Alphabet : Type} [DecidableEq S]
    (f : IntStep S Alphabet) (fuel : Nat) (ends : List S) (s : S)
    (t : TuringTape Alphabet) (e : TapeError) (hmem : s ∉ ends)
    (hstep : TuringStates.step f s t = .error e) :
    run_states f (fuel + 1) ends s t = RunOutcome.panicked e :=
  run_states_panics f fuel ends s t e hmem hstep

/-- Witness for the amended C4 at a concrete machine and tape. -/
theorem c4_witness :
    run_states leftLoopStep (3 + 1) [] ()
      (TuringTape.new Alphabet.Delta Alphabet.Delta [])
      = RunOutcome.panicked TapeError.boundaryViolation :=
  c4_panic_aborts_run leftLoopStep 3 [] ()
    (TuringTape.new Alphabet.Delta Alphabet.Delta [])
    TapeError.boundaryViolation (by simp) (by rfl)

/-- C10: whenever the initial state is already terminal, `run_states`
returns it at once with the very same tape (cursor, cells and empty symbol
untouched), for every transition contract — the contract is never
invoked, as the result does not depend on it. -/
theorem c10_terminal_initial_state {S Alphabet : Type} [DecidableEq S]
    (f : IntStep S Alphabet) (fuel : Nat) (ends : List S) (s : S)
    (t : TuringTape Alphabet) (hmem : s ∈ ends) :
    run_states f fuel ends s t = RunOutcome.halted s t :=
  run_states_at_terminal f fuel ends s t hmem

/-- Witness for C10 at a concrete machine and tape. -/
theorem c10_witness :
    run_states replaceOnesStep 7 [States.Start] States.Start
      (TuringTape.new Alphabet.Delta Alphabet.One [Alphabet.Zero])
      = RunOutcome.halted States.Start
          (TuringTape.new Alphabet.Delta Alphabet.One [Alphabet.Zero]) :=
  c10_terminal_initial_state replaceOnesStep 7 [States.Start] States.Start
    (TuringTape.new Alphabet.Delta Alphabet.One [Alphabet.Zero]) (by simp)

/-- C2: for every empty symbol, start symbol and initial sequence (the
empty one included), a freshly constructed tape has its cursor at the start
cell and its snapshot equals `[start] ++ initial` exactly (for any fuel
covering the tape length, which the snapshot loop consumes one unit per
cell walked). -/
theorem c2_new_tape_snapshot {Alphabet : Type} (empty start : Alphabet)
    (initial : List Alphabet) (fuel : Nat) (hfuel : initial.length ≤ fuel) :
    (TuringTape.new empty start initial).cursor = 0 ∧
    TuringTape.toVec fuel (TuringTape.new empty start initial) =
      Except.ok (start :: initial, TuringTape.new empty start initial) := by
  refine ⟨TuringTape.new_cursor empty start initial, ?_⟩
  have h := TuringTape.toVec_ok (TuringTape.new_Invariant empty start initial)
    (TuringTape.new_nextWF empty start initial)
    (show (TuringTape.new empty start initial).cells.length - 1 ≤ fuel from by
      rw [TuringTape.new_length]
      omega)
  rw [TuringTape.new_dataList] at h
  exact h

/-- Witness for C2 at a concrete construction. -/
theorem c2_witness :
    (TuringTape.new Alphabet.Delta Alphabet.Zero
        [Alphabet.One, Alphabet.Delta]).cursor = 0 ∧
    TuringTape.toVec 2 (TuringTape.new Alphabet.Delta Alphabet.Zero
        [Alphabet.One, Alphabet.Delta]) =
      Except.ok ([Alphabet.Zero, Alphabet.One, Alphabet.Delta],
        TuringTape.new Alphabet.Delta Alphabet.Zero
          [Alphabet.One, Alphabet.Delta]) :=
  c2_new_tape_snapshot Alphabet.Delta Alphabet.Zero
    [Alphabet.One, Alphabet.Delta] 2 (by decide)

/-- C6: the snapshot is observational.  On any success it returns the tape
unchanged (cursor restored, no cell materialized, so two consecutive
snapshots agree and a subsequent read is unchanged); and on a well-formed
tape with enough fuel it succeeds, yielding the symbol sequence with the
tape returned exactly as it was. -/
theorem c6_snapshot_observational {Alphabet : Type} (t : TuringTape Alphabet)
    (hinv : t.Invariant) (hwf : t.NextWF) (fuel : Nat)
    (hfuel : t.cells.length - 1 ≤ fuel) :
    (∀ (fl : Nat) (v : List Alphabet) (t1 : TuringTape Alphabet),
        TuringTape.toVec fl t = Except.ok (v, t1) → t1 = t) ∧
    TuringTape.toVec fuel t = Except.ok (t.dataList, t) :=
  ⟨fun _ _ _ h => TuringTape.toVec_shape h, TuringTape.toVec_ok hinv hwf hfuel⟩

/-- Witness for C6 at a concrete tape. -/
theorem c6_witness :
    (∀ (fl : Nat) (v : List Alphabet) (t1 : TuringTape Alphabet),
        TuringTape.toVec fl (TuringTape.new Alphabet.Delta Alphabet.One [])
          = Except.ok (v, t1) →
        t1 = TuringTape.new Alphabet.Delta Alphabet.One []) ∧
    TuringTape.toVec 3 (TuringTape.new Alphabet.Delta Alphabet.One []) =
      Except.ok ((TuringTape.new Alphabet.Delta Alphabet.One []).dataList,
        TuringTape.new Alphabet.Delta Alphabet.One []) :=
  c6_snapshot_observational (TuringTape.new Alphabet.Delta Alphabet.One [])
    (by decide) (by decide) 3 (by decide)

/-- One unfolding of the run loop at a non-terminal state. -/
theorem run_states_step_eq {S Alphabet : Type} [DecidableEq S]
    (f : IntStep S Alphabet) (k : Nat) (ends : List S) (s s1 : S)
    (t t1 : TuringTape Alphabet) (hmem : s ∉ ends)
    (hstep : TuringStates.step f s t = .ok (s1, t1)) :
    run_states f (k + 1) ends s t = run_states f k ends s1 t1 := by
  have hu : run_states f (k + 1) ends s t =
      if s ∈ ends then RunOutcome.halted s t
      else
        match TuringStates.step f s t with
        | .error e => RunOutcome.panicked e
        | .ok (s2, t2) => run_states f k ends s2 t2 := rfl
  rw [hu, if_neg hmem, hstep]

/-- The concrete intermediate tapes of the replace-ones run: `replaceTape d5
d6 c` holds the created cells with the two rightmost symbols `d5`, `d6` and
the cursor at index `c`; a seventh cell appears only after the run has
stepped past the initial symbols. -/
def replaceTape (d5 : Alphabet) (c : Nat) : TuringTape Alphabet :=
  { empty := Alphabet.Delta,
    cells := [{ next := some 1, data := Alphabet.Delta },
              { next := some 2, data := Alphabet.Zero },
              { next := some 3, data := Alphabet.Zero },
              { next := some 4, data := Alphabet.Zero },
              { next := some 5, data := d5 },
              { next := none, data := Alphabet.One }],
    cursor := c }

/-- The final tape of the replace-ones run: all ones replaced, a fresh
`Delta` cell materialized at the right end, cursor on it. -/
def replaceTapeEnd : TuringTape Alphabet :=
  { empty := Alphabet.Delta,
    cells := [{ next := some 1, data := Alphabet.Delta },
              { next := some 2, data := Alphabet.Zero },
              { next := some 3, data := Alphabet.Zero },
              { next := some 4, data := Alphabet.Zero },
              { next := some 5, data := Alphabet.Zero },
              { next := some 6, data := Alphabet.Zero },
              { next := none, data := Alphabet.Delta }],
    cursor := 6 }

/-- C9: running the replace-ones machine (`run_until_end` from `Start` with
terminal set `{ValidEnd}`, empty and start symbol `Delta`, initial sequence
`[Zero, Zero, Zero, One, One]`) halts in `ValidEnd` with final tape
sequence `[Delta, Zero, Zero, Zero, Zero, Zero, Delta]`: every `One`
replaced by `Zero` in a single pass. -/

theorem c9_replace_ones :
    run_until_end replaceOnesStep 10 10 States.Start [States.ValidEnd]
      Alphabet.Delta Alphabet.Delta
      [Alphabet.Zero, Alphabet.Zero, Alphabet.Zero, Alphabet.One, Alphabet.One]
    = RunVecOutcome.done States.ValidEnd
        [Alphabet.Delta, Alphabet.Zero, Alphabet.Zero, Alphabet.Zero,
         Alphabet.Zero, Alphabet.Zero, Alphabet.Delta] := by
  have h0 : TuringTape.new Alphabet.Delta Alphabet.Delta
      [Alphabet.Zero, Alphabet.Zero, Alphabet.Zero, Alphabet.One, Alphabet.One]
      = replaceTape Alphabet.One 0 := by decide
  have hne : States.Start ∉ [States.ValidEnd] := by decide
  have hne2 : States.Started ∉ [States.ValidEnd] := by decide
  have h1 : TuringStates.step replaceOnesStep States.Start
      (replaceTape Alphabet.One 0)
      = .ok (States.Started, replaceTape Alphabet.One 1) := by decide
  have h2 : TuringStates.step replaceOnesStep States.Started
      (replaceTape Alphabet.One 1)
      = .ok (States.Started, replaceTape Alphabet.One 2) := by decide
  have h3 : TuringStates.step replaceOnesStep States.Started
      (replaceTape Alphabet.One 2)
      = .ok (States.Started, replaceTape Alphabet.One 3) := by decide
  have h4 : TuringStates.step replaceOnesStep States.Started
      (replaceTape Alphabet.One 3)
      = .ok (States.Started, replaceTape Alphabet.One 4) := by decide
  have h5 : TuringStates.step replaceOnesStep States.Started
      (replaceTape Alphabet.One 4)
      = .ok (States.Started, replaceTape Alphabet.Zero 5) := by decide
  have h6 : TuringStates.step replaceOnesStep States.Started
      (replaceTape Alphabet.Zero 5)
      = .ok (States.Started, replaceTapeEnd) := by decide
  have h7 : TuringStates.step replaceOnesStep States.Started replaceTapeEnd
      = .ok (States.ValidEnd, replaceTapeEnd) := by decide
  have hrun : run_states replaceOnesStep 10 [States.ValidEnd] States.Start
      (replaceTape Alphabet.One 0)
      = RunOutcome.halted States.ValidEnd replaceTapeEnd := by
    rw [run_states_step_eq replaceOnesStep 9 [States.ValidEnd] States.Start
          States.Started (replaceTape Alphabet.One 0) (replaceTape Alphabet.One 1)
          hne h1,
        run_states_step_eq replaceOnesStep 8 [States.ValidEnd] States.Started
          States.Started (replaceTape Alphabet.One 1) (replaceTape Alphabet.One 2)
          hne2 h2,
        run_states_step_eq replaceOnesStep 7 [States.ValidEnd] States.Started
          States.Started (replaceTape Alphabet.One 2) (replaceTape Alphabet.One 3)
          hne2 h3,
        run_states_step_eq replaceOnesStep 6 [States.ValidEnd] States.Started
          States.Started (replaceTape Alphabet.One 3) (replaceTape Alphabet.One 4)
          hne2 h4,
        run_states_step_eq replaceOnesStep 5 [States.ValidEnd] States.Started
          States.Started (replaceTape Alphabet.One 4) (replaceTape Alphabet.Zero 5)
          hne2 h5,
        run_states_step_eq replaceOnesStep 4 [States.ValidEnd] States.Started
          States.Started (replaceTape Alphabet.Zero 5) replaceTapeEnd
          hne2 h6,
        run_states_step_eq replaceOnesStep 3 [States.ValidEnd] States.Started
          States.ValidEnd replaceTapeEnd replaceTapeEnd hne2 h7,
        run_states_at_terminal replaceOnesStep 3 [States.ValidEnd]
          States.ValidEnd replaceTapeEnd (by decide)]
  have htv : TuringTape.toVec 10 replaceTapeEnd =
      Except.ok ([Alphabet.Delta, Alphabet.Zero, Alphabet.Zero, Alphabet.Zero,
        Alphabet.Zero, Alphabet.Zero, Alphabet.Delta], replaceTapeEnd) := by
    decide
  unfold run_until_end
  dsimp only
  rw [h0, hrun]
  dsimp only
  rw [htv]

/-- C5: on every (well-formed) tape and cursor position, `step_right`
followed immediately by `step_left` returns the cursor to its prior cell,
and a subsequent read — as well as the symbol returned by `step_left` —
yields the symbol that was under the cursor before the pair of steps. -/
theorem c5_right_left_round_trip {Alphabet : Type} (t : TuringTape Alphabet)
    (hinv : t.Invariant) (hwf : t.NextWF) :
    ∃ (t1 : TuringTape Alphabet) (a : Alphabet) (t2 : TuringTape Alphabet)
      (b : Alphabet),
      t.step_right = Except.ok (t1, a) ∧
      t1.step_left = Except.ok (t2, b) ∧
      t2.cursor = t.cursor ∧
      t2.get_cursor = t.get_cursor ∧
      t.get_cursor = some b := by
  have hc : t.cursor < t.cells.length := hinv
  have hnd : t.cells[t.cursor]? = some t.cells[t.cursor] :=
    List.getElem?_eq_getElem hc
  rcases Nat.lt_or_ge (t.cursor + 1) t.cells.length with hlt | hge
  · have hnd1 : t.cells[t.cursor + 1]? = some t.cells[t.cursor + 1] :=
      List.getElem?_eq_getElem hlt
    refine ⟨{ t with cursor := t.cursor + 1 }, (t.cells[t.cursor + 1]).data, t,
      (t.cells[t.cursor]).data, TuringTape.step_right_ok_move hwf hnd hlt hnd1,
      ?_, rfl, rfl, TuringTape.get_cursor_eq hnd⟩
    exact TuringTape.step_left_ok rfl hnd
  · have heq : t.cursor + 1 = t.cells.length := by omega
    have hold : t.cells[t.cells.length - 1]? = some (t.cells[t.cursor]) := by
      rw [show t.cells.length - 1 = t.cursor from by omega]
      exact hnd
    have happ := TuringTape.append_at_old_last t.empty hold
    refine ⟨{ t.append t.empty with cursor := t.cells.length }, t.empty,
      { t.append t.empty with cursor := t.cells.length - 1 },
      ({ next := some t.cells.length, data := (t.cells[t.cursor]).data }
        : Node Alphabet).data,
      TuringTape.step_right_ok_append hwf hnd heq,
      TuringTape.step_left_ok (show t.cells.length = t.cells.length - 1 + 1 from
        by omega) happ,
      show t.cells.length - 1 = t.cursor from by omega, ?_, ?_⟩
    · rw [TuringTape.get_cursor_eq happ, TuringTape.get_cursor_eq hnd]
    · rw [TuringTape.get_cursor_eq hnd]

/-- Witness for C5 at a concrete tape. -/
theorem c5_witness :
    ∃ (t1 : TuringTape Alphabet) (a : Alphabet) (t2 : TuringTape Alphabet)
      (b : Alphabet),
      (TuringTape.new Alphabet.Delta Alphabet.Zero [Alphabet.One]).step_right
        = Except.ok (t1, a) ∧
      t1.step_left = Except.ok (t2, b) ∧
      t2.cursor = (TuringTape.new Alphabet.Delta Alphabet.Zero [Alphabet.One]).cursor ∧
      t2.get_cursor
        = (TuringTape.new Alphabet.Delta Alphabet.Zero [Alphabet.One]).get_cursor ∧
      (TuringTape.new Alphabet.Delta Alphabet.Zero [Alphabet.One]).get_cursor
        = some b :=
  c5_right_left_round_trip (TuringTape.new Alphabet.Delta Alphabet.Zero
    [Alphabet.One]) (by decide) (by decide)

/-- C7: on every tape satisfying the reachability invariant (with the
forward links well-formed, as they are on every tape the library builds),
`step_right` always succeeds — the failed-upgrade branch is unreachable: if
a cell exists to the right the cursor moves there, otherwise a new cell
holding `empty` is appended and the cursor moves onto it, and in both cases
the symbol now under the cursor is returned. -/
theorem c7_step_right_total {Alphabet : Type} (t : TuringTape Alphabet)
    (hinv : t.Invariant) (hwf : t.NextWF) :
    ∃ (t' : TuringTape Alphabet) (a : Alphabet),
      t.step_right = Except.ok (t', a) ∧
      t'.get_cursor = some a ∧
      ((t.cursor + 1 < t.cells.length ∧ t'.cells = t.cells ∧
          t'.cursor = t.cursor + 1) ∨
       (t.cursor + 1 = t.cells.length ∧ t'.cursor = t.cells.length ∧
          t'.dataList = t.dataList ++ [t.empty])) := by
  have hc : t.cursor < t.cells.length := hinv
  have hnd : t.cells[t.cursor]? = some t.cells[t.cursor] :=
    List.getElem?_eq_getElem hc
  rcases Nat.lt_or_ge (t.cursor + 1) t.cells.length with hlt | hge
  · have hnd1 : t.cells[t.cursor + 1]? = some t.cells[t.cursor + 1] :=
      List.getElem?_eq_getElem hlt
    exact ⟨{ t with cursor := t.cursor + 1 }, (t.cells[t.cursor + 1]).data,
      TuringTape.step_right_ok_move hwf hnd hlt hnd1,
      TuringTape.get_cursor_eq hnd1, Or.inl ⟨hlt, rfl, rfl⟩⟩
  · have heq : t.cursor + 1 = t.cells.length := by omega
    refine ⟨{ t.append t.empty with cursor := t.cells.length }, t.empty,
      TuringTape.step_right_ok_append hwf hnd heq,
      TuringTape.get_cursor_eq (TuringTape.append_last t t.empty),
      Or.inr ⟨heq, rfl, TuringTape.append_dataList t t.empty⟩⟩

/-- Witness for C7 at a concrete tape (the append case: cursor at last). -/
theorem c7_witness :
    ∃ (t' : TuringTape Alphabet) (a : Alphabet),
      (TuringTape.new Alphabet.Delta Alphabet.One []).step_right
        = Except.ok (t', a) ∧
      t'.get_cursor = some a ∧
      (((TuringTape.new Alphabet.Delta Alphabet.One []).cursor + 1
          < (TuringTape.new Alphabet.Delta Alphabet.One []).cells.length ∧
          t'.cells = (TuringTape.new Alphabet.Delta Alphabet.One []).cells ∧
          t'.cursor = (TuringTape.new Alphabet.Delta Alphabet.One []).cursor + 1) ∨
       ((TuringTape.new Alphabet.Delta Alphabet.One []).cursor + 1
          = (TuringTape.new Alphabet.Delta Alphabet.One []).cells.length ∧
          t'.cursor = (TuringTape.new Alphabet.Delta Alphabet.One []).cells.length ∧
          t'.dataList = (TuringTape.new Alphabet.Delta Alphabet.One []).dataList
            ++ [(TuringTape.new Alphabet.Delta Alphabet.One []).empty])) :=
  c7_step_right_total (TuringTape.new Alphabet.Delta Alphabet.One [])
    (by decide) (by decide)

/-- C8: every tape operation preserves the invariant that the cursor refers
to a cell reachable from the last (rightmost materialized) cell via
left-links — in the index embedding, that the cursor index is on the
materialized chain.  Construction establishes it; writing, appending,
stepping (whenever they return at all), the snapshot and whole engine runs
preserve it.  Reading (`get_cursor`) returns no tape and cannot disturb
it. -/
theorem c8_cursor_reachability {Alphabet : Type} :
    (∀ (empty start : Alphabet) (initial : List Alphabet),
        (TuringTape.new empty start initial).Invariant) ∧
    (∀ (t : TuringTape Alphabet) (v : Alphabet),
        t.Invariant → (t.set_cursor v).1.Invariant) ∧
    (∀ (t : TuringTape Alphabet) (tok : Alphabet),
        t.Invariant → (t.append tok).Invariant) ∧
    (∀ (t t' : TuringTape Alphabet) (a : Alphabet),
        t.step_right = Except.ok (t', a) → t'.Invariant) ∧
    (∀ (t t' : TuringTape Alphabet) (a : Alphabet),
        t.step_left = Except.ok (t', a) → t'.Invariant) ∧
    (∀ (fuel : Nat) (t t' : TuringTape Alphabet) (v : List Alphabet),
        TuringTape.toVec fuel t = Except.ok (v, t') → t.Invariant →
        t'.Invariant) ∧
    (∀ (S : Type) [DecidableEq S] (f : IntStep S Alphabet) (fuel : Nat)
        (ends : List S) (s s' : S) (t t' : TuringTape Alphabet),
        t.Invariant → t.NextWF →
        run_states f fuel ends s t = RunOutcome.halted s' t' →
        t'.Invariant) := by
  refine ⟨TuringTape.new_Invariant,
    fun t v h => TuringTape.set_cursor_invariant v h, ?_,
    fun t t' a h => TuringTape.step_right_inv h,
    fun t t' a h => (TuringTape.step_left_inv h).1,
    fun fuel t t' v h hi => by rw [TuringTape.toVec_shape h]; exact hi,
    fun S inst f fuel ends s s' t t' hi hw hr =>
      (run_states_preserves fuel ends s s' t t' hi hw hr).1⟩
  intro t tok h
  have hlt : t.cursor < t.cells.length := h
  show (t.append tok).cursor < (t.append tok).cells.length
  rw [TuringTape.append_cursor, TuringTape.append_length]
  omega

/-- Concrete two-cell tape used by the C8 witness, with the cursor at
index `c`. -/
def c8Tape (c : Nat) : TuringTape Alphabet :=
  { empty := Alphabet.Delta,
    cells := [{ next := some 1, data := Alphabet.Zero },
              { next := none, data := Alphabet.Delta }],
    cursor := c }

/-- Witness for C8: each preservation conjunct applied at a concrete
input. -/
theorem c8_witness :
    (TuringTape.new Alphabet.Delta Alphabet.Zero [Alphabet.One]).Invariant ∧
    ((TuringTape.new Alphabet.Delta Alphabet.Zero
        [Alphabet.One]).set_cursor Alphabet.Delta).1.Invariant ∧
    ((TuringTape.new Alphabet.Delta Alphabet.Zero
        [Alphabet.One]).append Alphabet.One).Invariant ∧
    (c8Tape 1).Invariant ∧
    (c8Tape 0).Invariant ∧
    (TuringTape.new Alphabet.Delta Alphabet.One []).Invariant ∧
    (TuringTape.new Alphabet.Delta Alphabet.Delta [Alphabet.Zero]).Invariant :=
  ⟨c8_cursor_reachability.1 Alphabet.Delta Alphabet.Zero [Alphabet.One],
   c8_cursor_reachability.2.1 _ Alphabet.Delta (by decide),
   c8_cursor_reachability.2.2.1 _ Alphabet.One (by decide),
   c8_cursor_reachability.2.2.2.1
     (TuringTape.new Alphabet.Delta Alphabet.Zero []) _ Alphabet.Delta
     (by decide),
   c8_cursor_reachability.2.2.2.2.1 (c8Tape 1) _ Alphabet.Zero (by decide),
   c8_cursor_reachability.2.2.2.2.2.1 1
     (TuringTape.new Alphabet.Delta Alphabet.One []) _ [Alphabet.One]
     (by decide) (by decide),
   c8_cursor_reachability.2.2.2.2.2.2 States replaceOnesStep 0 [States.Start]
     States.Start States.Start
     (TuringTape.new Alphabet.Delta Alphabet.Delta [Alphabet.Zero])
     (TuringTape.new Alphabet.Delta Alphabet.Delta [Alphabet.Zero])
     (by decide) (by decide) (by decide)⟩
